import Mathlib

/-!
Verification of the walk-forward evaluation engine in `src/evaluation.py`
(functions `dm_test` and `run_walk_forward`).

Modelling conventions for the shallow embedding:
* Python floats are modelled as exact rationals extended with a NaN element
  (type `F` below); arithmetic on `F` propagates NaN exactly as IEEE NaN
  propagates through `+`, `-`, `*`, `/`, and comparisons with NaN are false.
* The transcendental library calls (`np.log`, `np.sqrt`, `scipy.stats.t.cdf`)
  are abstract function parameters of the embedded definitions.
* `statsmodels` OLS fitting and the scikit-learn random forest are external
  estimators: a fit is an abstract function from the training window to an
  `Option` of fitted coefficients (for OLS) or an abstract fitted-model value
  (for the forest); `none` models a raised exception inside the `try` block.
  An OLS prediction applies the fitted coefficients to the test row exactly
  as `m.predict(sm.add_constant(x_now[features]))` does.
-/

/-- Floats as exact rationals plus a NaN element. -/
inductive F where
  | nan : F
  | fin : ℚ → F
deriving DecidableEq

namespace F

/-- Addition; NaN-propagating, exact on finite values. -/
def add : F → F → F
  | nan, _ => nan
  | _, nan => nan
  | fin a, fin b => fin (a + b)

/-- Subtraction; NaN-propagating. -/
def sub : F → F → F
  | nan, _ => nan
  | _, nan => nan
  | fin a, fin b => fin (a - b)

/-- Multiplication; NaN-propagating. -/
def mul : F → F → F
  | nan, _ => nan
  | _, nan => nan
  | fin a, fin b => fin (a * b)

/-- Negation; NaN-propagating. -/
def neg : F → F
  | nan => nan
  | fin a => fin (-a)

/-- Division; NaN-propagating, and NaN on a zero divisor (the code never
divides by zero on the paths we verify, so the zero-divisor value is inert). -/
def div : F → F → F
  | _, nan => nan
  | nan, _ => nan
  | fin a, fin b => if b = 0 then nan else fin (a / b)

/-- Absolute value; NaN-propagating, models `np.abs`. -/
def abs : F → F
  | nan => nan
  | fin a => fin |a|

/-- Strict less-than as a Boolean; any comparison with NaN is false,
exactly as in IEEE-754 (so Python `nan < x` is `False`). -/
def blt : F → F → Bool
  | fin a, fin b => a < b
  | _, _ => false

/-- Finiteness test: true on `fin`, false on `nan`. -/
def isFin : F → Bool
  | nan => false
  | fin _ => true

end F

/-- Sum of a list of `F` values, NaN-propagating (models `np.sum`). -/
def Fsum (l : List F) : F := l.foldl F.add (F.fin 0)

/-- Arithmetic mean of a list of `F` values; the mean of an empty list is NaN,
exactly as `np.mean` of an empty array is NaN (models `np.mean`). -/
def Fmean (l : List F) : F :=
  match Fsum l with
  | F.nan => F.nan
  | F.fin s => if l.length = 0 then F.nan else F.fin (s / l.length)

/-- The 1e-3 numeric floor used throughout `evaluation.py`. -/
def floorc : ℚ := 1 / 1000

/-- The 1e-18 variance-degeneracy threshold in `dm_test` (line 65). -/
def epsVar : ℚ := 1 / 10 ^ 18

/-- Embeds `np.clip(x, 1e-3, None)` on a scalar (lines 38-40 of
`evaluation.py`). -/
def clipQ (x : ℚ) : ℚ := max x floorc

/-- One QLIKE loss term `log(pred) + actual / pred` computed on clipped
values (lines 42-43 of `evaluation.py`); `logF` abstracts `np.log`. -/
def qlikeLoss (logF : ℚ → F) (a p : ℚ) : F :=
  F.add (logF (clipQ p)) (F.fin (clipQ a / clipQ p))

/-- The list `d - d.mean()` of centered values (line 54 of `evaluation.py`). -/
def centeredF (d : List F) : List F := d.map (fun x => F.sub x (Fmean d))

/-- Embeds `np.mean(dc[L:] * dc[:-L])`, the lag-`L` term of the Newey-West
loop (line 62 of `evaluation.py`); for `L = 0` it is `np.mean(dc * dc)`,
the `gamma0` of line 57. -/
def gammaHat (dc : List F) (L : ℕ) : F :=
  Fmean (List.zipWith F.mul (dc.drop L) (dc.take (dc.length - L)))

/-- Embeds the Newey-West long-run variance accumulation of lines 57-63 of
`evaluation.py`: `var_hat = gamma0` followed by
`var_hat += 2.0 * w * gammaL` for `L` in `range(1, nw_lags + 1)`. -/
def nwVarHat (d : List F) (lags : ℕ) : F :=
  let dc := centeredF d
  (List.range' 1 lags).foldl
    (fun v (L : ℕ) =>
      F.add v (F.mul (F.fin (2 * (1 - (L : ℚ) / ((lags : ℚ) + 1)))) (gammaHat dc L)))
    (gammaHat dc 0)

/-- Embeds lines 46-72 of `evaluation.py`: the part of `dm_test` that runs on
the loss-differential series `d`. Returns the `(dm_stat, p_value)` pair;
`(nan, nan)` is the "not available" result of line 51, `(0, 1)` the
degenerate-variance result of line 66. `sqrtF` abstracts `np.sqrt` and
`cdfF` abstracts `scipy.stats.t.cdf` with its degrees-of-freedom argument. -/
def dmStat (sqrtF : F → F) (cdfF : F → ℕ → F) (d : List F) (lags : ℕ) : F × F :=
  let T := d.length
  if T < 30 then (F.nan, F.nan)
  else
    let dbar := Fmean d
    let varHat := nwVarHat d lags
    if F.blt varHat (F.fin epsVar) then (F.fin 0, F.fin 1)
    else
      let stat := F.div dbar (sqrtF (F.div varHat (F.fin (T : ℚ))))
      (stat, F.mul (F.fin 2) (F.sub (F.fin 1) (cdfF (F.abs stat) (T - 1))))

/-- Embeds `dm_test(actual, pred1, pred2, nw_lags)` (lines 25-72 of
`evaluation.py`): clip the three input series to the 1e-3 floor, form the
QLIKE losses and their differential, then run the Diebold-Mariano core. -/
def dm_test (logF : ℚ → F) (sqrtF : F → F) (cdfF : F → ℕ → F)
    (actual pred1 pred2 : List ℚ) (lags : ℕ) : F × F :=
  let loss1 := List.zipWith (qlikeLoss logF) actual pred1
  let loss2 := List.zipWith (qlikeLoss logF) actual pred2
  dmStat sqrtF cdfF (List.zipWith F.sub loss1 loss2) lags

/-! Specification-side restatement of the Newey-West variance, written as the
spec writes it: `var = γ0 + 2·Σ_{L=1}^{lags} w_L·γ_L` with Bartlett weight
`w_L = 1 − L/(lags+1)` and `γ_L` the lag-`L` sample autocovariance of the
centered differential. It is compared with the code-side `nwVarHat` in the
theorem for claim C3. -/

/-- Rational mean of a rational list (division by a zero length yields 0,
which only occurs on the empty list, never used). -/
def qmean (l : List ℚ) : ℚ := l.sum / l.length

/-- The centered differential over the rationals. -/
def centeredQ (d : List ℚ) : List ℚ := d.map (fun x => x - qmean d)

/-- Lag-`L` sample autocovariance term of a centered series `dc`:
the average of `dc[i+L] * dc[i]` over the `T - L` available index pairs. -/
def gammaQ (dc : List ℚ) (L : ℕ) : ℚ :=
  (∑ i ∈ Finset.range (dc.length - L), dc.getD (i + L) 0 * dc.getD i 0) /
    ((dc.length : ℚ) - (L : ℚ))

/-- Newey-West long-run variance exactly as the spec states it:
`γ0 + 2·Σ_{L=1}^{lags} (1 − L/(lags+1))·γ_L`. -/
def nwVarSpec (d : List ℚ) (lags : ℕ) : ℚ :=
  let dc := centeredQ d
  gammaQ dc 0 +
    2 * ∑ L ∈ Finset.Icc 1 lags, (1 - (L : ℚ) / ((lags : ℚ) + 1)) * gammaQ dc L

/-! Embedding of `run_walk_forward` (lines 75-316 of `evaluation.py`).
The model starts from the cleaned table `data` (the DataFrame after the date
filter and `dropna` of lines 100-148), which is what the loop iterates over. -/

/-- One row of the cleaned modeling table: the columns `run_walk_forward`
reads (`Date`, the three HAR features, `Target_RV`, and the single selected
lag-1 conflict column when one exists). -/
structure Row where
  date : ℤ
  rvDaily : ℚ
  rvWeekly : ℚ
  rvMonthly : ℚ
  targetRV : ℚ
  conflict : ℚ
deriving DecidableEq, Inhabited

/-- Fitted OLS coefficients for the HAR baseline: intercept plus one
coefficient per feature in `["RV_Daily", "RV_Weekly", "RV_Monthly"]`. -/
structure Coef4 where
  c0 : ℚ
  cd : ℚ
  cw : ℚ
  cm : ℚ
deriving DecidableEq

/-- Fitted OLS coefficients for HAR-X: the HAR coefficients plus one for the
conflict column. -/
structure Coef5 where
  c0 : ℚ
  cd : ℚ
  cw : ℚ
  cm : ℚ
  cx : ℚ
deriving DecidableEq

/-- Applies fitted baseline coefficients to the test row, as
`m_base.predict(sm.add_constant(x_now[features_base]))` does
(lines 190-194 of `evaluation.py`). -/
def predBase (c : Coef4) (r : Row) : ℚ :=
  c.c0 + c.cd * r.rvDaily + c.cw * r.rvWeekly + c.cm * r.rvMonthly

/-- Applies fitted HAR-X coefficients to the test row
(lines 211-215 of `evaluation.py`). -/
def predAug (c : Coef5) (r : Row) : ℚ :=
  c.c0 + c.cd * r.rvDaily + c.cw * r.rvWeekly + c.cm * r.rvMonthly + c.cx * r.conflict

/-- One emitted forecast record (lines 240-246 of `evaluation.py`);
`none` in a prediction field models the `np.nan` of a failed sub-model. -/
structure Record where
  date : ℤ
  actual : ℚ
  predHAR : ℚ
  predHARX : Option ℚ
  predRF : Option ℚ
deriving DecidableEq

/-- Parameters and external estimators of one `run_walk_forward` call.
`M` is the abstract type of a fitted random-forest model; the `fit*`
functions return `none` when the library call raises (the `except` paths). -/
structure WalkParams (M : Type) where
  haveConflict : Bool
  window : ℕ
  stepSize : ℕ
  cadence : ℕ
  fitBase : List Row → Option Coef4
  fitAug : List Row → Option Coef5
  fitRF : List Row → Option M
  predictRF : M → Row → Option ℚ

/-- Loop state of the walk-forward loop: the accumulated records, the three
failure counters of line 168, and the random-forest cache of lines 170-172
(`rf_model`, `rf_last_fit_t`, which are always both set or both `None`). -/
structure WalkState (M : Type) where
  recs : List Record
  nfailBase : ℕ
  nfailAug : ℕ
  nfailRF : ℕ
  rfCache : Option (M × ℕ)

/-- Initial loop state (lines 167-172 of `evaluation.py`). -/
def initState (M : Type) : WalkState M := ⟨[], 0, 0, 0, none⟩

/-- The strictly trailing training window `data.iloc[t - window_size : t]`
of line 175 of `evaluation.py`. -/
def trainAt (window : ℕ) (data : List Row) (t : ℕ) : List Row :=
  (data.drop (t - window)).take window

/-- The single test row `data.iloc[[t]]` of line 176 of `evaluation.py`. -/
def xnowAt (data : List Row) (t : ℕ) : Row :=
  data.getD t default

/-- The random-forest block of lines 221-238 of `evaluation.py`: refit when
no cached model exists or `t - rf_last_fit_t >= rf_refit_every`, otherwise
predict with the cached model. Returns the prediction (`none` models the
`pr = np.nan` of a raised exception) and the new cache. A raised fit leaves
the cache unchanged; a fit that succeeds updates the cache even if the
subsequent predict raises, exactly as the Python assignments do. -/
def rfStep (M : Type) (P : WalkParams M) (train : List Row) (xnow : Row) (t : ℕ)
    (cache : Option (M × ℕ)) : Option ℚ × Option (M × ℕ) :=
  let refit : Option ℚ × Option (M × ℕ) :=
    match P.fitRF train with
    | none => (none, cache)
    | some m => ((P.predictRF m xnow).map (fun p => max p floorc), some (m, t))
  match cache with
  | none => refit
  | some (m, tfit) =>
    if t - tfit < P.cadence then
      ((P.predictRF m xnow).map (fun p => max p floorc), cache)
    else refit

/-- One iteration of the walk-forward loop (lines 174-246 of
`evaluation.py`): slice the strictly trailing training window and the single
test row, clamp the actual value, fit/predict the baseline (a failure skips
the step), then in conflict mode fit/predict HAR-X and the cached random
forest, and append one record. -/
def walkStep (M : Type) (P : WalkParams M) (data : List Row)
    (st : WalkState M) (t : ℕ) : WalkState M :=
  let train := trainAt P.window data t
  let xnow := xnowAt data t
  let y := max xnow.targetRV floorc
  match P.fitBase train with
  | none => { st with nfailBase := st.nfailBase + 1 }
  | some cb =>
    let pb := max (predBase cb xnow) floorc
    if P.haveConflict then
      let augRes := P.fitAug train
      let pa : Option ℚ := augRes.map (fun ca => max (predAug ca xnow) floorc)
      let na := if augRes.isNone then st.nfailAug + 1 else st.nfailAug
      let rfr := rfStep M P train xnow t st.rfCache
      let nr := if rfr.1.isNone then st.nfailRF + 1 else st.nfailRF
      { recs := st.recs ++ [⟨xnow.date, y, pb, pa, rfr.1⟩],
        nfailBase := st.nfailBase, nfailAug := na, nfailRF := nr,
        rfCache := rfr.2 }
    else
      { recs := st.recs ++ [⟨xnow.date, y, pb, none, none⟩],
        nfailBase := st.nfailBase, nfailAug := st.nfailAug,
        nfailRF := st.nfailRF, rfCache := st.rfCache }

/-- The evaluation indices `range(window_size, n_obs, step_size)` of
line 174 of `evaluation.py`. -/
def evalIndices (w n step : ℕ) : List ℕ :=
  List.range' w ((n - w + step - 1) / step) step

/-- The whole walk-forward loop of lines 174-246 of `evaluation.py`. -/
def runWalk (M : Type) (P : WalkParams M) (data : List Row) : WalkState M :=
  (evalIndices P.window data.length P.stepSize).foldl (walkStep M P data) (initState M)

/-- The common-sample restriction of lines 259-269 of `evaluation.py`:
keep the records where every compared model produced a finite prediction
(`Pred_HAR` is always finite in an emitted record). -/
def commonSample (hc : Bool) (recs : List Record) : List Record :=
  if hc then recs.filter (fun r => r.predHARX.isSome && r.predRF.isSome)
  else recs

/-- The observable outcome of one `run_walk_forward` call: the returned
forecast table plus the two Diebold-Mariano results printed at lines 309-314
(`none` when the corresponding test was not run). -/
structure RunResult where
  recs : List Record
  dmX : Option (F × F)
  dmR : Option (F × F)
deriving DecidableEq

/-- Embeds `run_walk_forward` from the cleaned table onward (lines 150-316
of `evaluation.py`): abort (`None`) when fewer than `window_size + 50` rows
remain (line 151) or fewer than 50 forecasts were generated (line 252);
return the forecasts without DM results when the common sample has fewer
than 50 records (line 277) or no conflict column is active (line 289);
otherwise also run the two DM tests of lines 309-310. -/
def run_walk_forward (M : Type) (P : WalkParams M) (logF : ℚ → F)
    (sqrtF : F → F) (cdfF : F → ℕ → F) (lagsDM : ℕ)
    (data : List Row) : Option RunResult :=
  if data.length < P.window + 50 then none
  else
    let st := runWalk M P data
    if st.recs.length < 50 then none
    else
      let resC := commonSample P.haveConflict st.recs
      if resC.length < 50 then some ⟨st.recs, none, none⟩
      else if P.haveConflict = false then some ⟨st.recs, none, none⟩
      else
        let a := resC.map Record.actual
        let ph := resC.map Record.predHAR
        let px := resC.map (fun r => r.predHARX.getD 0)
        let prf := resC.map (fun r => r.predRF.getD 0)
        some ⟨st.recs, some (dm_test logF sqrtF cdfF a ph px lagsDM),
              some (dm_test logF sqrtF cdfF a ph prf lagsDM)⟩

/-! Helper lemmas about the float model. -/

namespace F

/-- Adding NaN on the left yields NaN. -/
theorem nan_add (x : F) : add nan x = nan := by cases x <;> rfl

/-- Adding NaN on the right yields NaN. -/
theorem add_nan (x : F) : add x nan = nan := by cases x <;> rfl

/-- Addition of finite values is exact. -/
theorem fin_add_fin (a b : ℚ) : add (fin a) (fin b) = fin (a + b) := rfl

/-- Multiplication of finite values is exact. -/
theorem fin_mul_fin (a b : ℚ) : mul (fin a) (fin b) = fin (a * b) := rfl

/-- Multiplying NaN on the right yields NaN. -/
theorem mul_nan (x : F) : mul x nan = nan := by cases x <;> rfl

/-- Negation of NaN is NaN. -/
theorem neg_nan : neg nan = nan := rfl

/-- Subtracting two negated values negates the difference. -/
theorem neg_sub_neg (x y : F) : sub (neg x) (neg y) = neg (sub x y) := by
  cases x <;> cases y <;> simp [sub, neg] <;> ring

/-- The product of two negated values is the original product. -/
theorem neg_mul_neg (x y : F) : mul (neg x) (neg y) = mul x y := by
  cases x <;> cases y <;> simp [mul, neg]

/-- Dividing a negated numerator negates the quotient. -/
theorem neg_div (x y : F) : div (neg x) y = neg (div x y) := by
  cases x <;> cases y <;> simp only [div, neg]
  split <;> simp [neg] <;> ring

/-- Absolute value is invariant under negation. -/
theorem abs_neg (x : F) : abs (neg x) = abs x := by
  cases x <;> simp [abs, neg]

/-- Division with a NaN numerator yields NaN. -/
theorem nan_div (y : F) : div nan y = nan := by cases y <;> rfl

/-- Division by NaN yields NaN. -/
theorem div_nan (x : F) : div x nan = nan := by cases x <;> rfl

/-- NaN compares false against everything. -/
theorem nan_blt (y : F) : blt nan y = false := rfl

end F

/-- Folding `F.add` from a negated accumulator over a negated list negates
the fold over the original list. -/
theorem foldl_add_map_neg (l : List F) : ∀ a : F,
    (l.map F.neg).foldl F.add (F.neg a) = F.neg (l.foldl F.add a) := by
  induction l with
  | nil => intro a; rfl
  | cons x xs ih =>
    intro a
    have h : F.add (F.neg a) (F.neg x) = F.neg (F.add a x) := by
      cases a <;> cases x <;> simp [F.add, F.neg]
      ring
    simp only [List.map_cons, List.foldl_cons, h, ih]

/-- The NaN-propagating sum of a negated list is the negated sum. -/
theorem Fsum_map_neg (l : List F) : Fsum (l.map F.neg) = F.neg (Fsum l) := by
  have h := foldl_add_map_neg l (F.fin 0)
  rw [show F.neg (F.fin 0) = F.fin 0 by simp [F.neg]] at h
  exact h

/-- The NaN-propagating mean of a negated list is the negated mean. -/
theorem Fmean_map_neg (l : List F) : Fmean (l.map F.neg) = F.neg (Fmean l) := by
  rw [Fmean, Fmean, Fsum_map_neg, List.length_map]
  cases hs : Fsum l with
  | nan => rfl
  | fin s =>
    simp only [F.neg]
    split
    · rfl
    · simp [F.neg, neg_div]

/-- Folding `F.add` over a list of finite values starting from a finite
accumulator is the exact rational sum. -/
theorem foldl_add_map_fin (l : List ℚ) : ∀ a : ℚ,
    (l.map F.fin).foldl F.add (F.fin a) = F.fin (a + l.sum) := by
  induction l with
  | nil => intro a; simp [List.foldl]
  | cons x xs ih =>
    intro a
    simp only [List.map_cons, List.foldl_cons, F.fin_add_fin, ih, List.sum_cons]
    ring_nf

/-- The NaN-propagating sum of an all-finite list is the rational sum. -/
theorem Fsum_map_fin (l : List ℚ) : Fsum (l.map F.fin) = F.fin l.sum := by
  rw [Fsum, foldl_add_map_fin]
  norm_num

/-- The NaN-propagating mean of a nonempty all-finite list is the rational
mean. -/
theorem Fmean_map_fin (l : List ℚ) (h : l ≠ []) :
    Fmean (l.map F.fin) = F.fin (qmean l) := by
  rw [Fmean, Fsum_map_fin, List.length_map, qmean]
  simp [List.length_eq_zero, h]

/-- Swapping the operands of an elementwise subtraction negates every
element, at any pair of lengths. -/
theorem zipWith_sub_comm (xs : List F) : ∀ ys : List F,
    List.zipWith F.sub ys xs = (List.zipWith F.sub xs ys).map F.neg := by
  induction xs with
  | nil => intro ys; cases ys <;> rfl
  | cons x xs ih =>
    intro ys
    cases ys with
    | nil => rfl
    | cons y ys =>
      have h : F.sub y x = F.neg (F.sub x y) := by
        cases x <;> cases y <;> simp [F.sub, F.neg] <;> ring
      simp only [List.zipWith_cons_cons, List.map_cons, h, ih]

/-- Elementwise product of two negated lists equals the product of the
originals. -/
theorem zipWith_mul_neg (xs : List F) : ∀ ys : List F,
    List.zipWith F.mul (xs.map F.neg) (ys.map F.neg) = List.zipWith F.mul xs ys := by
  induction xs with
  | nil => intro ys; rfl
  | cons x xs ih =>
    intro ys
    cases ys with
    | nil => rfl
    | cons y ys =>
      simp only [List.map_cons, List.zipWith_cons_cons, F.neg_mul_neg, ih]

/-- Centering a negated series negates the centered series. -/
theorem centeredF_map_neg (l : List F) :
    centeredF (l.map F.neg) = (centeredF l).map F.neg := by
  simp only [centeredF, Fmean_map_neg, List.map_map]
  apply List.map_congr_left
  intro x _
  exact F.neg_sub_neg x (Fmean l)

/-- The lag-`L` autocovariance term is invariant under negating the centered
series. -/
theorem gammaHat_map_neg (dc : List F) (L : ℕ) :
    gammaHat (dc.map F.neg) L = gammaHat dc L := by
  rw [gammaHat, gammaHat, List.length_map, ← List.map_drop, ← List.map_take,
    zipWith_mul_neg]

/-- The Newey-West variance of a negated differential equals that of the
original differential. -/
theorem nwVarHat_map_neg (d : List F) (lags : ℕ) :
    nwVarHat (d.map F.neg) lags = nwVarHat d lags := by
  simp only [nwVarHat, centeredF_map_neg, gammaHat_map_neg]

/-- The DM core on a negated differential: the statistic is negated, the
p-value unchanged (in every branch). -/
theorem dmStat_map_neg (sqrtF : F → F) (cdfF : F → ℕ → F) (d : List F) (lags : ℕ) :
    dmStat sqrtF cdfF (d.map F.neg) lags =
      (F.neg (dmStat sqrtF cdfF d lags).1, (dmStat sqrtF cdfF d lags).2) := by
  simp only [dmStat, List.length_map, Fmean_map_neg, nwVarHat_map_neg]
  split
  · rfl
  · split
    · simp [F.neg]
    · simp only [F.neg_div, F.abs_neg]

/-- C8: DM test antisymmetry. For all inputs, swapping the two forecaster
series negates the DM statistic (equal magnitude, opposite sign) and leaves
the p-value identical; the sub-30-sample branch returns `(nan, nan)` and the
degenerate-variance branch `(0, 1)` under both orders, and NaN is its own
negation in the model, so the identity covers every branch. -/
theorem dm_test_antisymmetry (logF : ℚ → F) (sqrtF : F → F) (cdfF : F → ℕ → F)
    (actual predA predB : List ℚ) (lags : ℕ) :
    dm_test logF sqrtF cdfF actual predB predA lags =
      (F.neg (dm_test logF sqrtF cdfF actual predA predB lags).1,
       (dm_test logF sqrtF cdfF actual predA predB lags).2) := by
  simp only [dm_test]
  rw [zipWith_sub_comm (List.zipWith (qlikeLoss logF) actual predA)
    (List.zipWith (qlikeLoss logF) actual predB)]
  exact dmStat_map_neg sqrtF cdfF _ lags

/-- Folding a step function that is absorbed by NaN, over a list containing
an element that forces NaN, yields NaN from any start. -/
theorem foldl_absorb_nan (f : F → ℕ → F) (hnan : ∀ L, f F.nan L = F.nan)
    (x : ℕ) (hx : ∀ v, f v x = F.nan) :
    ∀ (l : List ℕ), x ∈ l → ∀ init : F, l.foldl f init = F.nan := by
  have hstay : ∀ l : List ℕ, l.foldl f F.nan = F.nan := by
    intro l
    induction l with
    | nil => rfl
    | cons y ys ih => simp only [List.foldl_cons, hnan, ih]
  intro l
  induction l with
  | nil => intro h; cases h
  | cons y ys ih =>
    intro hmem init
    rcases List.mem_cons.mp hmem with h | h
    · subst h
      simp only [List.foldl_cons, hx, hstay]
    · exact ih h _

/-- The centered series has the length of the original series. -/
theorem centeredF_length (d : List F) : (centeredF d).length = d.length := by
  simp [centeredF]

/-- C7: dm_test guard branches. Any input series shorter than 30 points
gives the "not available" result `(nan, nan)` (line 50-51 of
`evaluation.py`) without computing a statistic, both at the level of the
raw inputs and at the level of the loss differential; and any differential
of length at least 30 whose Newey-West variance estimate compares below the
1e-18 epsilon yields `stat = 0, p = 1` (lines 65-66) instead of dividing by
the near-zero variance. -/
theorem dm_test_guard_branches (sqrtF : F → F) (cdfF : F → ℕ → F) :
    (∀ (logF : ℚ → F) (actual pred1 pred2 : List ℚ) (lags : ℕ),
      actual.length < 30 →
      dm_test logF sqrtF cdfF actual pred1 pred2 lags = (F.nan, F.nan)) ∧
    (∀ (d : List F) (lags : ℕ), d.length < 30 →
      dmStat sqrtF cdfF d lags = (F.nan, F.nan)) ∧
    (∀ (d : List F) (lags : ℕ), 30 ≤ d.length →
      F.blt (nwVarHat d lags) (F.fin epsVar) = true →
      dmStat sqrtF cdfF d lags = (F.fin 0, F.fin 1)) := by
  have hshort : ∀ (d : List F) (lags : ℕ), d.length < 30 →
      dmStat sqrtF cdfF d lags = (F.nan, F.nan) := by
    intro d lags h
    simp only [dmStat]
    rw [if_pos h]
  refine ⟨?_, hshort, ?_⟩
  · intro logF actual pred1 pred2 lags h
    simp only [dm_test]
    apply hshort
    simp only [List.length_zipWith]
    omega
  · intro d lags h30 hdeg
    simp only [dmStat]
    rw [if_neg (by omega), if_pos hdeg]

/-- C7 witness: a 1-point series hits the "not available" branch, and a
constant 30-point series has zero long-run variance and hits the
degenerate-variance branch. -/
theorem dm_test_guard_branches_witness :
    dmStat (fun x => x) (fun x _ => x) [F.fin 1] 5 = (F.nan, F.nan) ∧
    dmStat (fun x => x) (fun x _ => x) (List.replicate 30 (F.fin 0)) 5 =
      (F.fin 0, F.fin 1) := by
  constructor
  · exact (dm_test_guard_branches _ _).2.1 [F.fin 1] 5 (by norm_num)
  · refine (dm_test_guard_branches _ _).2.2 (List.replicate 30 (F.fin 0)) 5
      (by norm_num) ?_
    norm_num [nwVarHat, centeredF, gammaHat, Fmean, Fsum, F.add, F.sub, F.mul,
      F.blt, epsVar, List.replicate_succ, List.range']

/-- C10: with `nw_lags` at least the sample size `T` (and `T ≥ 30`), the
lag-`T` term of the Newey-West loop averages an empty slice, so the variance
estimate is NaN, the NaN comparison against the epsilon is false, and both
the returned statistic and p-value are NaN (given that `np.sqrt` and the
t-CDF propagate NaN, which they do). -/
theorem dm_test_nan_when_lags_ge_T (sqrtF : F → F) (cdfF : F → ℕ → F)
    (hs : sqrtF F.nan = F.nan) (hc : ∀ n, cdfF F.nan n = F.nan)
    (d : List ℚ) (lags : ℕ) (h30 : 30 ≤ d.length) (hlag : d.length ≤ lags) :
    nwVarHat (d.map F.fin) lags = F.nan ∧
      dmStat sqrtF cdfF (d.map F.fin) lags = (F.nan, F.nan) := by
  have hlen : (centeredF (d.map F.fin)).length = d.length := by
    rw [centeredF_length, List.length_map]
  have hvar : nwVarHat (d.map F.fin) lags = F.nan := by
    simp only [nwVarHat]
    apply foldl_absorb_nan _ _ d.length
    · intro v
      have hg : gammaHat (centeredF (d.map F.fin)) d.length = F.nan := by
        rw [gammaHat, hlen]
        simp [Fmean, Fsum]
      rw [hg, F.mul_nan, F.add_nan]
    · rw [List.mem_range'_1]
      omega
    · intro L
      rw [F.nan_add]
  refine ⟨hvar, ?_⟩
  simp only [dmStat, List.length_map]
  rw [if_neg (by omega), hvar]
  rw [show F.blt F.nan (F.fin epsVar) = false from rfl]
  simp only [Bool.false_eq_true, if_false]
  rw [F.nan_div, hs, F.div_nan, show F.abs F.nan = F.nan from rfl, hc]
  rw [show F.sub (F.fin 1) F.nan = F.nan from rfl, F.mul_nan]

/-- C10 witness: a concrete 30-point series with `nw_lags = 30`. -/
theorem dm_test_nan_when_lags_ge_T_witness :
    nwVarHat ((List.replicate 30 (1 : ℚ)).map F.fin) 30 = F.nan ∧
      dmStat (fun x => x) (fun x _ => x)
        ((List.replicate 30 (1 : ℚ)).map F.fin) 30 = (F.nan, F.nan) :=
  dm_test_nan_when_lags_ge_T (fun x => x) (fun x _ => x) rfl (fun _ => rfl)
    (List.replicate 30 (1 : ℚ)) 30 (by norm_num) (by norm_num)

/-- Centering an all-finite series is the finite embedding of rational
centering. -/
theorem centeredF_map_fin (d : List ℚ) (h : d ≠ []) :
    centeredF (d.map F.fin) = (centeredQ d).map F.fin := by
  simp only [centeredF, centeredQ, Fmean_map_fin d h, List.map_map]
  apply List.map_congr_left
  intro x _
  rfl

/-- Elementwise product of all-finite lists is the finite embedding of the
rational elementwise product. -/
theorem zipWith_mul_map_fin (a : List ℚ) : ∀ b : List ℚ,
    List.zipWith F.mul (a.map F.fin) (b.map F.fin) =
      (List.zipWith (fun x y => x * y) a b).map F.fin := by
  induction a with
  | nil => intro b; rfl
  | cons x xs ih =>
    intro b
    cases b with
    | nil => rfl
    | cons y ys => simp only [List.map_cons, List.zipWith_cons_cons, F.fin_mul_fin, ih]

/-- The elementwise product `dc[L:] * dc[:-L]` written as a map over the
index range, with `dc[i+L] * dc[i]` at position `i`. -/
theorem zipWith_drop_take_eq (dc : List ℚ) (L : ℕ) (hL : L ≤ dc.length) :
    List.zipWith (fun x y => x * y) (dc.drop L) (dc.take (dc.length - L)) =
      (List.range (dc.length - L)).map (fun i => dc.getD (i + L) 0 * dc.getD i 0) := by
  apply List.ext_getElem
  · simp only [List.length_zipWith, List.length_drop, List.length_take,
      List.length_map, List.length_range]
    omega
  · intro i h1 h2
    have hlen1 : i < dc.length - L := by
      simp only [List.length_zipWith, List.length_drop, List.length_take] at h1
      omega
    have hiL : i + L < dc.length := by omega
    have hi : i < dc.length := by omega
    simp only [List.getElem_zipWith, List.getElem_drop, List.getElem_take,
      List.getElem_map, List.getElem_range]
    rw [List.getD_eq_getElem dc 0 hiL, List.getD_eq_getElem dc 0 hi]
    simp only [Nat.add_comm L i]

/-- A list sum over `List.range` is the corresponding `Finset.range` sum. -/
theorem sum_map_range (f : ℕ → ℚ) : ∀ n : ℕ,
    ((List.range n).map f).sum = ∑ i ∈ Finset.range n, f i := by
  intro n
  induction n with
  | zero => simp
  | succ n ih =>
    rw [List.range_succ, List.map_append, List.sum_append, Finset.sum_range_succ, ih]
    simp

/-- The lag-`L` Newey-West term on an all-finite centered series is the
finite embedding of the rational autocovariance term `gammaQ`. -/
theorem gammaHat_map_fin (dc : List ℚ) (L : ℕ) (hL : L < dc.length) :
    gammaHat (dc.map F.fin) L = F.fin (gammaQ dc L) := by
  rw [gammaHat, List.length_map, ← List.map_drop, ← List.map_take, zipWith_mul_map_fin]
  have hne : List.zipWith (fun x y => x * y) (dc.drop L) (dc.take (dc.length - L)) ≠ [] := by
    apply List.length_pos.mp
    simp only [List.length_zipWith, List.length_drop, List.length_take]
    omega
  rw [Fmean_map_fin _ hne]
  congr 1
  rw [qmean, zipWith_drop_take_eq dc L (le_of_lt hL), sum_map_range, gammaQ]
  rw [List.length_map, List.length_range]
  rw [Nat.cast_sub (le_of_lt hL)]

/-- Folding the accumulation step over all-finite per-lag terms is the exact
rational accumulated sum. -/
theorem foldl_add_eq_fin (g : ℕ → F) (gq : ℕ → ℚ) :
    ∀ l : List ℕ, (∀ L ∈ l, g L = F.fin (gq L)) → ∀ a : ℚ,
      l.foldl (fun v L => F.add v (g L)) (F.fin a) = F.fin (a + (l.map gq).sum) := by
  intro l
  induction l with
  | nil => intro _ a; simp
  | cons x xs ih =>
    intro h a
    simp only [List.foldl_cons, List.map_cons, List.sum_cons]
    rw [h x (List.mem_cons_self x xs), F.fin_add_fin,
      ih (fun L hL => h L (List.mem_cons_of_mem _ hL))]
    congr 1
    ring

/-- A list sum over `List.range' 1 lags` is the `Finset.Icc 1 lags` sum. -/
theorem sum_map_range'_one (gq : ℕ → ℚ) : ∀ lags : ℕ,
    ((List.range' 1 lags).map gq).sum = ∑ L ∈ Finset.Icc 1 lags, gq L := by
  intro lags
  induction lags with
  | zero => simp
  | succ n ih =>
    rw [List.range'_concat, List.map_append, List.sum_append, ih,
      Finset.sum_Icc_succ_top (by omega)]
    simp [Nat.add_comm]

/-- The code's Newey-West variance loop, run on an all-finite differential
with fewer lags than sample points, computes exactly the spec's closed-form
variance `γ0 + 2·Σ_{L=1}^{lags} (1 − L/(lags+1))·γ_L`. -/
theorem nwVarHat_map_fin (d : List ℚ) (lags : ℕ) (h0 : d ≠ [])
    (hlag : lags < d.length) :
    nwVarHat (d.map F.fin) lags = F.fin (nwVarSpec d lags) := by
  have hlen : (centeredQ d).length = d.length := by simp [centeredQ]
  have hpos : 0 < d.length := List.length_pos.mpr h0
  simp only [nwVarHat, centeredF_map_fin d h0]
  rw [gammaHat_map_fin (centeredQ d) 0 (by omega)]
  rw [foldl_add_eq_fin
    (fun L => F.mul (F.fin (2 * (1 - (L : ℚ) / ((lags : ℚ) + 1))))
      (gammaHat ((centeredQ d).map F.fin) L))
    (fun L => 2 * (1 - (L : ℚ) / ((lags : ℚ) + 1)) * gammaQ (centeredQ d) L)
    (List.range' 1 lags) ?_ (gammaQ (centeredQ d) 0)]
  · congr 1
    rw [sum_map_range'_one, nwVarSpec, Finset.mul_sum]
    congr 1
    apply Finset.sum_congr rfl
    intro L _
    ring
  · intro L hL
    have hmem := List.mem_range'_1.mp hL
    have hg := gammaHat_map_fin (centeredQ d) L (by omega)
    simp only [hg]
    exact F.fin_mul_fin _ _

/-- C3: for every loss-differential series `d` of length `T ≥ 30` and
caller-supplied lag count smaller than `T` (so no lag term is empty; claim
C10 covers the complement), when the variance is not in the degenerate
branch (claim C7 covers that branch), `dm_test`'s core computes the long-run
variance as the spec's `γ0 + 2·Σ_{L=1}^{lags} (1 − L/(lags+1))·γ_L` with
`γ_L` the lag-`L` sample autocovariance of the centered differential, and
returns `stat = mean(d)/sqrt(var/T)` with two-sided p-value
`p = 2·(1 − CDF(|stat|))` at `T − 1` degrees of freedom. -/
theorem dm_test_newey_west_formula (sqrtF : F → F) (cdfF : F → ℕ → F)
    (d : List ℚ) (lags : ℕ) (h30 : 30 ≤ d.length) (hlag : lags < d.length)
    (hvar : epsVar ≤ nwVarSpec d lags) :
    dmStat sqrtF cdfF (d.map F.fin) lags =
      (F.div (F.fin (qmean d))
         (sqrtF (F.div (F.fin (nwVarSpec d lags)) (F.fin (d.length : ℚ)))),
       F.mul (F.fin 2) (F.sub (F.fin 1)
         (cdfF (F.abs (F.div (F.fin (qmean d))
            (sqrtF (F.div (F.fin (nwVarSpec d lags)) (F.fin (d.length : ℚ))))))
          (d.length - 1)))) := by
  have hne : d ≠ [] := by
    intro h
    rw [h] at h30
    simp at h30
  have hvarF := nwVarHat_map_fin d lags hne hlag
  have hmean := Fmean_map_fin d hne
  simp only [dmStat, List.length_map]
  rw [if_neg (by omega), hvarF, hmean]
  rw [show F.blt (F.fin (nwVarSpec d lags)) (F.fin epsVar) = false from by
    simp [F.blt, not_lt.mpr hvar]]
  simp only [Bool.false_eq_true, if_false]

/-- Concrete witness differential for claim C3: fifteen zeros followed by
fifteen twos, mean 1, unit sample variance. -/
def dWit : List ℚ := List.replicate 15 0 ++ List.replicate 15 2

/-- The code-side variance of the witness differential at zero lags is 1. -/
theorem nwVarHat_dWit : nwVarHat (dWit.map F.fin) 0 = F.fin 1 := by
  norm_num [dWit, nwVarHat, centeredF, gammaHat, Fmean, Fsum, F.add, F.sub,
    F.mul, List.replicate_succ, List.range']

/-- The spec-side variance of the witness differential at zero lags is 1. -/
theorem nwVarSpec_dWit : nwVarSpec dWit 0 = 1 := by
  have h := nwVarHat_map_fin dWit 0 (by norm_num [dWit]) (by norm_num [dWit])
  rw [nwVarHat_dWit] at h
  injection h with h2
  exact h2.symm

/-- C3 witness: the Newey-West formula theorem applied to the concrete
30-point differential `dWit` with zero lags, with `np.sqrt` and the t-CDF
instantiated by transparent functions. -/
theorem dm_test_newey_west_formula_witness :
    epsVar ≤ nwVarSpec dWit 0 ∧
      dmStat (fun x => x) (fun x _ => x) (dWit.map F.fin) 0 =
        (F.div (F.fin (qmean dWit))
           (F.div (F.fin (nwVarSpec dWit 0)) (F.fin (dWit.length : ℚ))),
         F.mul (F.fin 2) (F.sub (F.fin 1)
           (F.abs (F.div (F.fin (qmean dWit))
             (F.div (F.fin (nwVarSpec dWit 0)) (F.fin (dWit.length : ℚ))))))) := by
  have hv : epsVar ≤ nwVarSpec dWit 0 := by
    rw [nwVarSpec_dWit]
    norm_num [epsVar]
  exact ⟨hv, dm_test_newey_west_formula (fun x => x) (fun x _ => x) dWit 0
    (by norm_num [dWit]) (by norm_num [dWit]) hv⟩

/-- Every element of a zipped list is the image of a pair of elements. -/
theorem exists_of_mem_zipWith {α β γ : Type} (f : α → β → γ) :
    ∀ (as : List α) (bs : List β) (c : γ), c ∈ List.zipWith f as bs →
      ∃ a b, c = f a b := by
  intro as
  induction as with
  | nil => intro bs c h; cases h
  | cons a as ih =>
    intro bs c h
    cases bs with
    | nil => cases h
    | cons b bs =>
      rcases List.mem_cons.mp h with h | h
      · exact ⟨a, b, h⟩
      · exact ih bs c h

/-- In the reuse branch (a cached model exists and `t - t_fit` is below the
cadence), the random-forest block predicts with the cached model and leaves
the cache untouched. -/
theorem rfStep_reuse (M : Type) (P : WalkParams M) (train : List Row)
    (xnow : Row) (t : ℕ) (cache : Option (M × ℕ)) (m : M) (tfit : ℕ)
    (hcache : cache = some (m, tfit)) (hlt : t - tfit < P.cadence) :
    rfStep M P train xnow t cache =
      ((P.predictRF m xnow).map (fun p => max p floorc), cache) := by
  subst hcache
  simp only [rfStep, if_pos hlt]

/-- In the refit branch (no cached model, or the cadence has elapsed), the
random-forest block fits on the training window; a raised fit leaves the
cache unchanged, a successful fit stores `(model, t)` and predicts. -/
theorem rfStep_refit (M : Type) (P : WalkParams M) (train : List Row)
    (xnow : Row) (t : ℕ) (cache : Option (M × ℕ))
    (hcond : cache = none ∨ ∃ m tfit, cache = some (m, tfit) ∧ P.cadence ≤ t - tfit) :
    rfStep M P train xnow t cache =
      match P.fitRF train with
      | none => (none, cache)
      | some m => ((P.predictRF m xnow).map (fun p => max p floorc), some (m, t)) := by
  rcases hcond with h | ⟨m, tfit, h, hge⟩ <;> subst h
  · simp only [rfStep]
  · simp only [rfStep, if_neg (by omega : ¬ t - tfit < P.cadence)]

/-- Whenever the random-forest block produces a prediction, it has been
clamped to the 1e-3 floor. -/
theorem rfStep_fst_floor (M : Type) (P : WalkParams M) (train : List Row)
    (xnow : Row) (t : ℕ) (cache : Option (M × ℕ)) (q : ℚ)
    (h : (rfStep M P train xnow t cache).1 = some q) : floorc ≤ q := by
  have hmap : ∀ o : Option ℚ, o.map (fun p => max p floorc) = some q → floorc ≤ q := by
    intro o ho
    simp only [Option.map_eq_some'] at ho
    obtain ⟨p, _, hq⟩ := ho
    rw [← hq]
    exact le_max_right _ _
  rcases hc : cache with _ | ⟨m, tfit⟩
  all_goals subst hc
  · rw [rfStep_refit M P train xnow t none (Or.inl rfl)] at h
    cases hf : P.fitRF train <;> rw [hf] at h
    · cases h
    · exact hmap _ h
  · by_cases hlt : t - tfit < P.cadence
    · rw [rfStep_reuse M P train xnow t _ m tfit rfl hlt] at h
      exact hmap _ h
    · rw [rfStep_refit M P train xnow t _
        (Or.inr ⟨m, tfit, rfl, by omega⟩)] at h
      cases hf : P.fitRF train <;> rw [hf] at h
      · cases h
      · exact hmap _ h

/-- A failed baseline fit skips the step: only the baseline failure counter
changes (lines 197-199 of `evaluation.py`). -/
theorem walkStep_base_none (M : Type) (P : WalkParams M) (data : List Row)
    (st : WalkState M) (t : ℕ)
    (hfb : P.fitBase (trainAt P.window data t) = none) :
    walkStep M P data st t = { st with nfailBase := st.nfailBase + 1 } := by
  simp only [walkStep, hfb]

/-- A successful baseline fit in conflict mode emits exactly one record,
with each sub-model's field and failure counter determined by its own
fit/predict outcome, and the cache determined by the random-forest block. -/
theorem walkStep_base_conflict (M : Type) (P : WalkParams M) (data : List Row)
    (st : WalkState M) (t : ℕ) (cb : Coef4)
    (hfb : P.fitBase (trainAt P.window data t) = some cb)
    (hc : P.haveConflict = true) :
    walkStep M P data st t =
      { recs := st.recs ++
          [{ date := (xnowAt data t).date,
             actual := max (xnowAt data t).targetRV floorc,
             predHAR := max (predBase cb (xnowAt data t)) floorc,
             predHARX := (P.fitAug (trainAt P.window data t)).map
               (fun ca => max (predAug ca (xnowAt data t)) floorc),
             predRF := (rfStep M P (trainAt P.window data t) (xnowAt data t) t st.rfCache).1 }],
        nfailBase := st.nfailBase,
        nfailAug := if (P.fitAug (trainAt P.window data t)).isNone
          then st.nfailAug + 1 else st.nfailAug,
        nfailRF := if (rfStep M P (trainAt P.window data t) (xnowAt data t) t st.rfCache).1.isNone
          then st.nfailRF + 1 else st.nfailRF,
        rfCache := (rfStep M P (trainAt P.window data t) (xnowAt data t) t st.rfCache).2 } := by
  simp [walkStep, hfb, hc]

/-- A successful baseline fit without an active conflict column emits one
record with missing augmented and benchmark fields and changes nothing else. -/
theorem walkStep_base_noconflict (M : Type) (P : WalkParams M) (data : List Row)
    (st : WalkState M) (t : ℕ) (cb : Coef4)
    (hfb : P.fitBase (trainAt P.window data t) = some cb)
    (hc : P.haveConflict = false) :
    walkStep M P data st t =
      { recs := st.recs ++
          [{ date := (xnowAt data t).date,
             actual := max (xnowAt data t).targetRV floorc,
             predHAR := max (predBase cb (xnowAt data t)) floorc,
             predHARX := none,
             predRF := none }],
        nfailBase := st.nfailBase, nfailAug := st.nfailAug,
        nfailRF := st.nfailRF, rfCache := st.rfCache } := by
  simp [walkStep, hfb, hc]

/-- C4: cached-benchmark-model invariant. At any loop iteration that reaches
the benchmark block (baseline fit succeeded, conflict mode active): if a
cached model exists and fewer than `refit_cadence` steps have elapsed since
its fit index, the cache is carried unchanged and the emitted record's
benchmark prediction comes from the cached model applied to the new test
row; otherwise (no cached model yet, or `t - t_fit ≥ refit_cadence`) the
benchmark is refit on the training window, the cache becoming
`(new model, t)` on success and staying unchanged if the fit raises. -/
theorem rf_cache_refit_policy (M : Type) (P : WalkParams M) (data : List Row)
    (st : WalkState M) (t : ℕ) (cb : Coef4)
    (hc : P.haveConflict = true)
    (hfb : P.fitBase (trainAt P.window data t) = some cb) :
    (∀ (m : M) (tfit : ℕ), st.rfCache = some (m, tfit) → t - tfit < P.cadence →
      (walkStep M P data st t).rfCache = st.rfCache ∧
      (walkStep M P data st t).recs = st.recs ++
        [{ date := (xnowAt data t).date,
           actual := max (xnowAt data t).targetRV floorc,
           predHAR := max (predBase cb (xnowAt data t)) floorc,
           predHARX := (P.fitAug (trainAt P.window data t)).map
             (fun ca => max (predAug ca (xnowAt data t)) floorc),
           predRF := (P.predictRF m (xnowAt data t)).map (fun p => max p floorc) }]) ∧
    ((st.rfCache = none ∨
        ∃ (m : M) (tfit : ℕ), st.rfCache = some (m, tfit) ∧ P.cadence ≤ t - tfit) →
      (walkStep M P data st t).rfCache =
        match P.fitRF (trainAt P.window data t) with
        | none => st.rfCache
        | some m => some (m, t)) := by
  rw [walkStep_base_conflict M P data st t cb hfb hc]
  constructor
  · intro m tfit hm hlt
    rw [rfStep_reuse M P (trainAt P.window data t) (xnowAt data t) t _ m tfit hm hlt]
    exact ⟨rfl, rfl⟩
  · intro hcond
    rw [rfStep_refit M P (trainAt P.window data t) (xnowAt data t) t _ hcond]
    cases hf : P.fitRF (trainAt P.window data t) <;> simp [hf]

/-- C4 witness: a concrete reuse step. The cache holds a model fitted at
index 0, the cadence is 25, and step `t = 1` reuses it without refitting. -/
theorem rf_cache_refit_policy_witness :
    (walkStep Unit
      { haveConflict := true, window := 1, stepSize := 1, cadence := 25,
        fitBase := fun _ => some ⟨0, 0, 0, 0⟩,
        fitAug := fun _ => none,
        fitRF := fun _ => some (),
        predictRF := fun _ _ => some 7 }
      [default, default]
      { recs := [], nfailBase := 0, nfailAug := 0, nfailRF := 0,
        rfCache := some ((), 0) } 1).rfCache = some ((), 0) :=
  ((rf_cache_refit_policy Unit
      { haveConflict := true, window := 1, stepSize := 1, cadence := 25,
        fitBase := fun _ => some ⟨0, 0, 0, 0⟩,
        fitAug := fun _ => none,
        fitRF := fun _ => some (),
        predictRF := fun _ _ => some 7 }
      [default, default]
      { recs := [], nfailBase := 0, nfailAug := 0, nfailRF := 0,
        rfCache := some ((), 0) } 1 ⟨0, 0, 0, 0⟩ rfl rfl).1 () 0 rfl
      (by norm_num)).1

/-- C6: per-step error handling. A failed baseline fit skips the step
entirely (no record emitted, baseline failure counter incremented, run not
aborted); a failed augmented fit still emits one record with only the
augmented field missing and increments the augmented counter; a failed
benchmark fit-or-predict still emits one record with only the benchmark
field missing and increments the benchmark counter. -/
theorem per_step_error_handling (M : Type) (P : WalkParams M) (data : List Row)
    (st : WalkState M) (t : ℕ) :
    (P.fitBase (trainAt P.window data t) = none →
      walkStep M P data st t = { st with nfailBase := st.nfailBase + 1 }) ∧
    (∀ cb : Coef4, P.fitBase (trainAt P.window data t) = some cb →
      P.haveConflict = true →
      P.fitAug (trainAt P.window data t) = none →
      ∃ r : Record, (walkStep M P data st t).recs = st.recs ++ [r] ∧
        r.predHARX = none ∧
        r.predHAR = max (predBase cb (xnowAt data t)) floorc ∧
        (walkStep M P data st t).nfailAug = st.nfailAug + 1 ∧
        (walkStep M P data st t).nfailBase = st.nfailBase) ∧
    (∀ cb : Coef4, P.fitBase (trainAt P.window data t) = some cb →
      P.haveConflict = true →
      (rfStep M P (trainAt P.window data t) (xnowAt data t) t st.rfCache).1 = none →
      ∃ r : Record, (walkStep M P data st t).recs = st.recs ++ [r] ∧
        r.predRF = none ∧
        r.predHAR = max (predBase cb (xnowAt data t)) floorc ∧
        (walkStep M P data st t).nfailRF = st.nfailRF + 1 ∧
        (walkStep M P data st t).nfailBase = st.nfailBase) := by
  refine ⟨walkStep_base_none M P data st t, ?_, ?_⟩
  · intro cb hfb hc haug
    rw [walkStep_base_conflict M P data st t cb hfb hc]
    refine ⟨_, rfl, by simp [haug], rfl, by simp [haug], rfl⟩
  · intro cb hfb hc hrf
    rw [walkStep_base_conflict M P data st t cb hfb hc]
    refine ⟨_, rfl, hrf, rfl, by simp [hrf], rfl⟩

/-- C6 witness: with a baseline that always raises, one step increments the
baseline failure counter and emits nothing. -/
theorem per_step_error_handling_witness :
    walkStep Unit
      { haveConflict := true, window := 1, stepSize := 1, cadence := 25,
        fitBase := fun _ => none,
        fitAug := fun _ => none,
        fitRF := fun _ => none,
        predictRF := fun _ _ => none }
      [default, default] (initState Unit) 1 =
      { initState Unit with nfailBase := 1 } :=
  (per_step_error_handling Unit
      { haveConflict := true, window := 1, stepSize := 1, cadence := 25,
        fitBase := fun _ => none,
        fitAug := fun _ => none,
        fitRF := fun _ => none,
        predictRF := fun _ _ => none }
      [default, default] (initState Unit) 1).1 rfl

/-- Floor invariant of an emitted forecast record: the stored actual and
baseline prediction are at least the 1e-3 floor, and each optional
prediction is either missing or at least the floor. -/
def recFloored (r : Record) : Prop :=
  floorc ≤ r.actual ∧ floorc ≤ r.predHAR ∧
    (∀ q, r.predHARX = some q → floorc ≤ q) ∧
    (∀ q, r.predRF = some q → floorc ≤ q)

/-- One walk-forward step only ever appends records satisfying the floor
invariant. -/
theorem walkStep_recs_floor (M : Type) (P : WalkParams M) (data : List Row)
    (st : WalkState M) (t : ℕ) :
    ∀ r ∈ (walkStep M P data st t).recs, r ∈ st.recs ∨ recFloored r := by
  intro r hr
  cases hfb : P.fitBase (trainAt P.window data t) with
  | none =>
    rw [walkStep_base_none M P data st t hfb] at hr
    exact Or.inl hr
  | some cb =>
    cases hc : P.haveConflict with
    | false =>
      rw [walkStep_base_noconflict M P data st t cb hfb hc] at hr
      rcases List.mem_append.mp hr with h | h
      · exact Or.inl h
      · right
        rw [List.mem_singleton] at h
        subst h
        exact ⟨le_max_right _ _, le_max_right _ _,
          fun q hq => by simp at hq, fun q hq => by simp at hq⟩
    | true =>
      rw [walkStep_base_conflict M P data st t cb hfb hc] at hr
      rcases List.mem_append.mp hr with h | h
      · exact Or.inl h
      · right
        rw [List.mem_singleton] at h
        subst h
        refine ⟨le_max_right _ _, le_max_right _ _, ?_, ?_⟩
        · intro q hq
          simp only [Option.map_eq_some'] at hq
          obtain ⟨ca, _, hq2⟩ := hq
          rw [← hq2]
          exact le_max_right _ _
        · intro q hq
          exact rfStep_fst_floor M P _ _ t st.rfCache q hq

/-- Folding walk-forward steps preserves the floor invariant of the record
accumulator. -/
theorem foldl_recs_floor (M : Type) (P : WalkParams M) (data : List Row) :
    ∀ (ts : List ℕ) (st : WalkState M), (∀ r ∈ st.recs, recFloored r) →
      ∀ r ∈ (ts.foldl (walkStep M P data) st).recs, recFloored r := by
  intro ts
  induction ts with
  | nil => intro st h; exact h
  | cons x xs ih =>
    intro st h
    apply ih
    intro r hr
    rcases walkStep_recs_floor M P data st x r hr with h1 | h1
    · exact h r h1
    · exact h1

/-- C9: every record in the returned forecast table satisfies the floor
invariant (actual and baseline prediction at least 1e-3; augmented and
benchmark predictions missing or at least 1e-3), and the stored actual of
any emitted record is the floor-clamped target of the test row, not the raw
target value. -/
theorem forecast_record_floor_invariant (M : Type) (P : WalkParams M)
    (data : List Row) :
    (∀ r ∈ (runWalk M P data).recs, recFloored r) ∧
    (∀ (st : WalkState M) (t : ℕ) (r : Record),
      (walkStep M P data st t).recs = st.recs ++ [r] →
      r.actual = max (xnowAt data t).targetRV floorc) := by
  constructor
  · rw [runWalk]
    apply foldl_recs_floor
    intro r hr
    simp [initState] at hr
  · intro st t r h
    cases hfb : P.fitBase (trainAt P.window data t) with
    | none =>
      rw [walkStep_base_none M P data st t hfb] at h
      exfalso
      have hlen := congrArg List.length h
      simp at hlen
    | some cb =>
      cases hc : P.haveConflict with
      | false =>
        rw [walkStep_base_noconflict M P data st t cb hfb hc] at h
        have h2 := List.append_cancel_left h
        simp only [List.cons.injEq, and_true] at h2
        rw [← h2]
      | true =>
        rw [walkStep_base_conflict M P data st t cb hfb hc] at h
        have h2 := List.append_cancel_left h
        simp only [List.cons.injEq, and_true] at h2
        rw [← h2]

/-- Concrete parameters for run-level witnesses: no conflict column, window
1, step 1, a baseline whose fitted coefficients put weight 1 on the daily
feature, and sub-models that always raise. -/
def Pwit : WalkParams Unit :=
  { haveConflict := false, window := 1, stepSize := 1, cadence := 25,
    fitBase := fun _ => some ⟨0, 1, 0, 0⟩,
    fitAug := fun _ => none,
    fitRF := fun _ => none,
    predictRF := fun _ _ => none }

/-- First witness row: daily feature 1, target 2. -/
def rowA : Row := ⟨0, 1, 0, 0, 2, 0⟩

/-- Second witness row: daily feature 3, target 2. -/
def rowB : Row := ⟨1, 3, 0, 0, 2, 0⟩

/-- Witness table: two rows, so the walk evaluates exactly step 1. -/
def dataWit : List Row := [rowA, rowB]

/-- C9 witness: the single record the witness run emits satisfies the floor
invariant; it stores the clamped actual 2 and baseline prediction 3. -/
theorem forecast_record_floor_invariant_witness :
    (⟨1, 2, 3, none, none⟩ : Record) ∈ (runWalk Unit Pwit dataWit).recs ∧
      recFloored ⟨1, 2, 3, none, none⟩ := by
  have hmem : (⟨1, 2, 3, none, none⟩ : Record) ∈ (runWalk Unit Pwit dataWit).recs := by
    norm_num [runWalk, evalIndices, walkStep, trainAt, xnowAt, Pwit, dataWit,
      rowA, rowB, initState, predBase, floorc, max_def, List.range']
  exact ⟨hmem, (forecast_record_floor_invariant Unit Pwit dataWit).1 _ hmem⟩

/-- Every QLIKE loss term is finite (never NaN) when the logarithm is finite
on positive arguments, because both of its inputs are clipped to the
positive floor first. -/
theorem qlikeLoss_isFin (logF : ℚ → F)
    (hlog : ∀ y : ℚ, 0 < y → (logF y).isFin = true) (a p : ℚ) :
    (qlikeLoss logF a p).isFin = true := by
  have hpos : 0 < clipQ p :=
    lt_of_lt_of_le (by norm_num [floorc]) (le_max_right p floorc)
  have h := hlog (clipQ p) hpos
  cases hl : logF (clipQ p) with
  | nan => rw [hl] at h; simp [F.isFin] at h
  | fin q => simp [qlikeLoss, hl, F.add, F.isFin]

/-- C5: QLIKE floor safety. Any value at or below zero (or below the 1e-3
floor) is clamped to the floor by the clip of `dm_test`; every clipped value
is at least the floor; every loss term built by `dm_test` from arbitrary
inputs is finite (no NaN/Inf and nothing raised, given that the log of a
positive number is finite); and every record a walk-forward step emits
carries only floor-clamped values into the downstream loss computations. -/
theorem qlike_floor_safety :
    (∀ x : ℚ, x ≤ 0 → clipQ x = floorc) ∧
    (∀ x : ℚ, floorc ≤ clipQ x) ∧
    (∀ logF : ℚ → F, (∀ y : ℚ, 0 < y → (logF y).isFin = true) →
      ∀ (a p : List ℚ), ∀ l ∈ List.zipWith (qlikeLoss logF) a p,
        l.isFin = true) ∧
    (∀ (M : Type) (P : WalkParams M) (data : List Row) (st : WalkState M)
      (t : ℕ), ∀ r ∈ (walkStep M P data st t).recs,
        r ∈ st.recs ∨ recFloored r) := by
  refine ⟨?_, fun x => le_max_right x floorc, ?_, walkStep_recs_floor⟩
  · intro x hx
    exact max_eq_right (le_trans hx (by norm_num [floorc]))
  · intro logF hlog a p l hl
    obtain ⟨a', p', hl2⟩ := exists_of_mem_zipWith (qlikeLoss logF) a p l hl
    rw [hl2]
    exact qlikeLoss_isFin logF hlog a' p'

/-- C5 witness: the clip sends the non-positive value -5 to the floor, the
clipped value is at least the floor, and a concrete loss term is finite. -/
theorem qlike_floor_safety_witness :
    clipQ (-5) = floorc ∧ floorc ≤ clipQ (-5) ∧
      (qlikeLoss (fun _ => F.fin 0) 1 1).isFin = true := by
  refine ⟨qlike_floor_safety.1 (-5) (by norm_num),
    qlike_floor_safety.2.1 (-5), ?_⟩
  exact qlike_floor_safety.2.2.1 (fun _ => F.fin 0) (fun y _ => rfl) [1] [1]
    (qlikeLoss (fun _ => F.fin 0) 1 1) (by simp)

/-- The training window at step `t` is unchanged when a later table slice is
replaced: it reads only rows strictly before `t`. -/
theorem trainAt_eq_of_take_agree (w : ℕ) (d1 d2 : List Row) (t : ℕ)
    (hw : w ≤ t) (h : d1.take (t + 1) = d2.take (t + 1)) :
    trainAt w d1 t = trainAt w d2 t := by
  have key : ∀ d : List Row, trainAt w d t = ((d.take (t + 1)).drop (t - w)).take w := by
    intro d
    rw [trainAt, List.drop_take, List.take_take]
    congr 1
    omega
  rw [key d1, key d2, h]

/-- The test row at step `t` is determined by the first `t + 1` rows. -/
theorem xnowAt_eq_of_take_agree (d1 d2 : List Row) (t : ℕ)
    (h : d1.take (t + 1) = d2.take (t + 1)) :
    xnowAt d1 t = xnowAt d2 t := by
  have key : ∀ d : List Row, d.getD t default = ((d.take (t + 1))[t]?).getD default := by
    intro d
    rw [List.getD_eq_getElem?_getD, List.getElem?_take, if_pos (by omega)]
  rw [xnowAt, xnowAt, key d1, key d2, h]

/-- One walk-forward step at index `t` is unaffected by the table's content
strictly after index `t` (with `window ≤ t`, as holds for every loop index). -/
theorem walkStep_eq_of_take_agree (M : Type) (P : WalkParams M)
    (d1 d2 : List Row) (t : ℕ) (st : WalkState M)
    (hw : P.window ≤ t) (h : d1.take (t + 1) = d2.take (t + 1)) :
    walkStep M P d1 st t = walkStep M P d2 st t := by
  simp only [walkStep, trainAt_eq_of_take_agree P.window d1 d2 t hw h,
    xnowAt_eq_of_take_agree d1 d2 t h]

/-- C1 (amended): strict no-look-ahead. Every model fit at step `t` reads
only the strictly trailing window `rows[t - window_size : t]` (the training
slice is already determined by the rows strictly before `t`), and changing
values only at indices strictly greater than `t` leaves every loop state —
hence every forecast record — produced by steps up to `t` unchanged. (The
original claim's "index ≥ t" fails: the forecast at step `t` reads the test
row `t` itself, see the counterexample.) -/
theorem walk_no_lookahead_strict (M : Type) (P : WalkParams M) :
    (∀ (w t : ℕ) (d : List Row), w ≤ t → trainAt w d t = trainAt w (d.take t) t) ∧
    (∀ (d1 d2 : List Row) (t : ℕ), d1.take (t + 1) = d2.take (t + 1) →
      ∀ ts : List ℕ, (∀ s ∈ ts, P.window ≤ s ∧ s ≤ t) →
      ∀ st : WalkState M,
        ts.foldl (walkStep M P d1) st = ts.foldl (walkStep M P d2) st) := by
  constructor
  · intro w t d hw
    rw [trainAt, trainAt, List.drop_take, List.take_take]
    congr 1
    omega
  · intro d1 d2 t h ts
    induction ts with
    | nil => intro _ st; rfl
    | cons x xs ih =>
      intro hmem st
      have hx := hmem x (List.mem_cons_self x xs)
      have e : ∀ d : List Row, (d.take (t + 1)).take (x + 1) = d.take (x + 1) := by
        intro d
        rw [List.take_take]
        congr 1
        omega
      have hpre : d1.take (x + 1) = d2.take (x + 1) := by
        rw [← e d1, ← e d2, h]
      simp only [List.foldl_cons]
      rw [walkStep_eq_of_take_agree M P d1 d2 x st hx.1 hpre]
      exact ih (fun s hs => hmem s (List.mem_cons_of_mem x hs)) _

/-- Third witness row: same as `rowB` except the daily feature is 5. -/
def rowC : Row := ⟨1, 5, 0, 0, 2, 0⟩

/-- Witness table differing from `dataWit` only at index 1. -/
def dataWit2 : List Row := [rowA, rowC]

/-- C1 counterexample: two tables that agree strictly before index `t = 1`
and differ only at index 1 (an index `≥ t`) give different forecasts at
step 1, because the prediction applies the fitted coefficients to the test
row's regressors (lines 190-194 of `evaluation.py`). So "changing any value
at index ≥ t does not change the forecast produced at step t" is false as
stated. -/
theorem lookahead_counterexample :
    dataWit.take 1 = dataWit2.take 1 ∧
    dataWit.length = dataWit2.length ∧
    (runWalk Unit Pwit dataWit).recs.map Record.predHAR = [3] ∧
    (runWalk Unit Pwit dataWit2).recs.map Record.predHAR = [5] := by
  refine ⟨rfl, rfl, ?_, ?_⟩ <;>
    norm_num [runWalk, evalIndices, walkStep, trainAt, xnowAt, Pwit, dataWit,
      dataWit2, rowA, rowB, rowC, initState, predBase, floorc, max_def,
      List.range']

/-- C1 witness: two three-row tables agreeing up to index 1 and differing at
index 2 produce identical loop states over the schedule `[1]`, and the
training slice at step 1 reads only rows strictly before 1. -/
theorem walk_no_lookahead_strict_witness :
    trainAt 1 [rowA, rowB, rowB] 1 = trainAt 1 ([rowA, rowB, rowB].take 1) 1 ∧
    [1].foldl (walkStep Unit Pwit [rowA, rowB, rowB]) (initState Unit) =
      [1].foldl (walkStep Unit Pwit [rowA, rowB, rowC]) (initState Unit) := by
  constructor
  · exact (walk_no_lookahead_strict Unit Pwit).1 1 1 [rowA, rowB, rowB] (by norm_num)
  · exact (walk_no_lookahead_strict Unit Pwit).2 [rowA, rowB, rowB]
      [rowA, rowB, rowC] 1 rfl [1]
      (by intro s hs; rw [List.mem_singleton] at hs; subst hs; exact ⟨le_refl 1, le_refl 1⟩)
      (initState Unit)

/-- Walk parameters with the scenario's 750-row window. -/
def Pwit750 : WalkParams Unit := { Pwit with window := 750 }

/-- C2 counterexample: with `window_size = 750` on a 770-row table, the run
aborts at the `n_obs < window_size + 50` guard of lines 150-153 of
`evaluation.py` and returns `None` — it does not return the per-step
forecasts, and no DM "not available" result is produced. -/
theorem insufficient_rows_counterexample :
    (List.replicate 770 rowA).length = 770 ∧
    run_walk_forward Unit Pwit750 (fun _ => F.nan) (fun x => x) (fun x _ => x) 5
      (List.replicate 770 rowA) = none := by
  constructor
  · norm_num
  · simp only [run_walk_forward]
    rw [if_pos]
    norm_num [Pwit750, Pwit]

/-- C2 (amended): a table with fewer than `window_size + 50` rows makes
`run_walk_forward` abort and return nothing at all (line 151-153), and
independently a run that generated fewer than 50 forecast records also
returns nothing (lines 252-255); in the 770-row scenario with window 750
the first guard fires, so neither forecasts nor any DM result (available or
not) are returned. -/
theorem insufficient_sample_aborts (M : Type) (P : WalkParams M)
    (logF : ℚ → F) (sqrtF : F → F) (cdfF : F → ℕ → F) (lagsDM : ℕ)
    (data : List Row) :
    (data.length < P.window + 50 →
      run_walk_forward M P logF sqrtF cdfF lagsDM data = none) ∧
    ((runWalk M P data).recs.length < 50 →
      run_walk_forward M P logF sqrtF cdfF lagsDM data = none) := by
  constructor
  · intro h
    simp only [run_walk_forward, if_pos h]
  · intro h
    by_cases h1 : data.length < P.window + 50
    · simp only [run_walk_forward, if_pos h1]
    · simp only [run_walk_forward, if_neg h1, if_pos h]

/-- C2 witness: the abort theorem applied to a concrete 100-row table with
window 750. -/
theorem insufficient_sample_aborts_witness :
    run_walk_forward Unit Pwit750 (fun _ => F.nan) (fun x => x) (fun x _ => x) 5
      (List.replicate 100 rowA) = none :=
  (insufficient_sample_aborts Unit Pwit750 (fun _ => F.nan) (fun x => x)
      (fun x _ => x) 5 (List.replicate 100 rowA)).1
    (by norm_num [Pwit750, Pwit])
